import Mathlib

/-!
Verification development for `distutils/sysconfig.py` (Python 3.2).

Python strings are embedded as `List Char`; Python dictionaries as
association lists whose assignment updates an existing key in place and
otherwise appends (dictionary iteration order is modelled as insertion
order, a valid refinement of CPython 3.2's unspecified order).  Fallible
code (`KeyError` / `TypeError`) is modelled with `Except`, and unbounded
`while` loops with an explicit fuel parameter, `none` meaning the loop has
not finished within the given fuel.
-/

namespace Sysconfig

abbrev Str := List Char

/-- Python `str.isspace` characters relevant here (the `\s` class and the
characters stripped by `str.strip()`), restricted to ASCII. -/
def isPySpace (c : Char) : Bool :=
  c = ' ' || c = '\t' || c = '\n' || c = '\r' || c = '\x0b' || c = '\x0c'

def isAlphaCh (c : Char) : Bool :=
  ('a' ≤ c && c ≤ 'z') || ('A' ≤ c && c ≤ 'Z')

def isDigitCh (c : Char) : Bool :=
  '0' ≤ c && c ≤ '9'

def isUpperCh (c : Char) : Bool :=
  'A' ≤ c && c ≤ 'Z'

/-- The character class `[A-Za-z0-9_]` of the Makefile/config regexes. -/
def isNameChar (c : Char) : Bool :=
  isAlphaCh c || isDigitCh c || c = '_'

/-- Python `str.strip()` (ASCII whitespace). -/
def pyStrip (s : Str) : Str :=
  ((s.dropWhile isPySpace).reverse.dropWhile isPySpace).reverse

/-- Value of a nonempty all-digit string. -/
def digitsVal (ds : Str) : Option Nat :=
  if ds = [] then none
  else if ds.all isDigitCh then
    some (ds.foldl (fun a c => a * 10 + (c.toNat - '0'.toNat)) 0)
  else none

/-- Python `int(s)` on a `str` (Python 3.2): optional surrounding
whitespace, an optional sign, then one or more decimal digits;
`none` models the `ValueError`. -/
def pyInt (s : Str) : Option Int :=
  match pyStrip s with
  | '+' :: ds => (digitsVal ds).map Int.ofNat
  | '-' :: ds => (digitsVal ds).map (fun n => -(Int.ofNat n))
  | ds => (digitsVal ds).map Int.ofNat

/-- Python `v.replace(&dollar-dollar, empty)`: remove each non-overlapping
literal `$$`, scanning left to right. -/
def removeDollarDollar : Str → Str
  | '$' :: '$' :: rest => removeDollarDollar rest
  | c :: rest => c :: removeDollarDollar rest
  | [] => []

/-- Python `v.replace('$$', '$')`: unescape each `$$` to a single `$`. -/
def unescapeDollars : Str → Str
  | '$' :: '$' :: rest => '$' :: unescapeDollars rest
  | c :: rest => c :: unescapeDollars rest
  | [] => []

/-- Python `str(i)` for an `int`. -/
def intToStr (i : Int) : Str :=
  if i < 0 then '-' :: Nat.toDigits 10 i.natAbs else Nat.toDigits 10 i.toNat

/-- Dictionary lookup (`d[k]` / `k in d` tests) on an association list. -/
def alookup (k : Str) : List (Str × α) → Option α
  | [] => none
  | (k', v) :: rest => if k' = k then some v else alookup k rest

/-- Dictionary assignment `d[k] = v`: update in place, else append. -/
def ainsert (k : Str) (v : α) : List (Str × α) → List (Str × α)
  | [] => [(k, v)]
  | (k', v') :: rest => if k' = k then (k, v) :: rest else (k', v') :: ainsert k v rest

/-- Dictionary deletion `del d[k]`. -/
def aerase (k : Str) : List (Str × α) → List (Str × α)
  | [] => []
  | (k', v') :: rest => if k' = k then rest else (k', v') :: aerase k rest

/-- A configuration value: Python stores either an `int` or a `str`. -/
inductive Value where
  | int (i : Int)
  | str (s : Str)
deriving DecidableEq, Repr

/-- Python `str(done[n])`. -/
def strOfValue : Value → Str
  | Value.int i => intToStr i
  | Value.str s => s

/-- The final `v.strip()` pass applied to string values only. -/
def stripValue : Value → Value
  | Value.int i => Value.int i
  | Value.str s => Value.str (pyStrip s)

abbrev Cfg := List (Str × Value)

abbrev EnvMap := List (Str × Str)

/-- Regex `_variable_rx`: anchored match of
`([a-zA-Z][a-zA-Z0-9_]+)\s*=\s*(.*)` returning the two groups.  The
name needs at least two characters (`+` after the leading letter). -/
def matchVariable (line : Str) : Option (Str × Str) :=
  match line with
  | [] => none
  | c :: rest =>
    if isAlphaCh c then
      let run := rest.takeWhile isNameChar
      if run = [] then none
      else
        match (rest.dropWhile isNameChar).dropWhile isPySpace with
        | '=' :: r2 => some (c :: run, r2.dropWhile isPySpace)
        | _ => none
    else none

/-- After `$(` (or a brace), scan `[A-Za-z][A-Za-z0-9_]*` followed by
the closing character `cl`; returns the name and the text after `cl`. -/
def scanVarName (cl : Char) : Str → Option (Str × Str)
  | [] => none
  | c :: r =>
    if isAlphaCh c then
      match r.dropWhile isNameChar with
      | d :: post => if d = cl then some (c :: r.takeWhile isNameChar, post) else none
      | [] => none
    else none

/-- Leftmost match of a `$` + `op` + name + `cl` reference
(`_findvar1_rx` with `op = '('`, `_findvar2_rx` with the brace pair);
returns `(text before the match, name, text after the match)`. -/
def findRefWith (op cl : Char) : Str → Option (Str × Str × Str)
  | [] => none
  | c :: rest =>
    if c = '$' then
      match rest with
      | o :: r2 =>
        if o = op then
          match scanVarName cl r2 with
          | some (nm, post) => some ([], nm, post)
          | none => (findRefWith op cl rest).map (fun p => (c :: p.1, p.2.1, p.2.2))
        else (findRefWith op cl rest).map (fun p => (c :: p.1, p.2.1, p.2.2))
      | [] => none
    else (findRefWith op cl rest).map (fun p => (c :: p.1, p.2.1, p.2.2))

/-- `_findvar1_rx.search(value) or _findvar2_rx.search(value)`. -/
def findRef (s : Str) : Option (Str × Str × Str) :=
  match findRefWith '(' ')' s with
  | some r => some r
  | none => findRefWith '\x7b' '\x7d' s

/-- Parser state of `parse_makefile`: the `done` and `notdone`
dictionaries. -/
structure MState where
  done : Cfg
  notdone : List (Str × Str)
deriving DecidableEq, Repr

/-- The value stored for an assignment classified as "done": an `int`
when the (already stripped) text parses as one, else the string with
`$$` unescaped to `$`. -/
def doneValue (v : Str) : Value :=
  match pyInt v with
  | some i => Value.int i
  | none => Value.str (unescapeDollars v)

/-- One line of the first scan of `parse_makefile` (lines 278-298 of the
source): match the assignment regex, strip the right-hand side, and file
it under `done` or `notdone`. -/
def classifyLine (st : MState) (line : Str) : MState :=
  match matchVariable line with
  | none => st
  | some (n, v0) =>
    let v := pyStrip v0
    if '$' ∈ removeDollarDollar v then
      ⟨st.done, ainsert n v st.notdone⟩
    else
      ⟨ainsert n (doneValue v) st.done, st.notdone⟩

def initState (lines : List Str) : MState :=
  lines.foldl classifyLine ⟨[], []⟩

/-- The tuple `renamed_variables = ('CFLAGS', 'LDFLAGS', 'CPPFLAGS')`. -/
def renamed_variables : List Str :=
  [("CFLAGS").data, ("LDFLAGS").data, ("CPPFLAGS").data]

/-- Python `name.startswith('PY_')`. -/
def startsWithPY : Str → Bool
  | 'P' :: 'Y' :: '_' :: _ => true
  | _ => false

/-- Prepend the `PY_` prefix (`'PY_' + n`). -/
def pyCat (n : Str) : Str := 'P' :: 'Y' :: '_' :: n

/-- Outcome of resolving one referenced name inside a pending value:
the resolution may raise `KeyError` (`crash`), leave the variable for a
later sweep (`skip`, Python's `found = False`), or produce the
replacement text together with the possibly-updated `done` map. -/
inductive Resolution where
  | crash
  | skip
  | item (it : Str) (done1 : Cfg)
deriving DecidableEq, Repr

/-- The resolution chain of `parse_makefile` (source lines 312-333):
`done` map first, then skip if the name is itself pending, then the
process environment, then the `PY_`-renamed indirection for
`CFLAGS`/`LDFLAGS`/`CPPFLAGS` (whose last case looks up `done['PY_'+n]`
unguarded), else default the name to the empty string and mark it done. -/
def resolveRef (env : EnvMap) (done : Cfg) (nd : List (Str × Str)) (name n : Str) :
    Resolution :=
  match alookup n done with
  | some v => Resolution.item (strOfValue v) done
  | none =>
    match alookup n nd with
    | some _ => Resolution.skip
    | none =>
      match alookup n env with
      | some e => Resolution.item e done
      | none =>
        if n ∈ renamed_variables then
          if startsWithPY name = true ∧ name.drop 3 ∈ renamed_variables then
            Resolution.item [] done
          else
            match alookup (pyCat n) nd with
            | some _ => Resolution.skip
            | none =>
              match alookup (pyCat n) done with
              | some v => Resolution.item (strOfValue v) done
              | none => Resolution.crash
        else
          Resolution.item [] (ainsert n (Value.str []) done)

/-- One iteration of the inner `for name in list(notdone)` body (source
lines 309-355): find the first reference in the pending value, resolve
it, splice the replacement in, and promote, keep, or drop the variable.
On promotion of a `PY_`-prefixed renamed variable the value is also
published under the unprefixed name unless that name is already done
(note the source republishes the unstripped `value`). -/
def processVar (env : EnvMap) (st : MState) (name : Str) : Except Unit MState :=
  match alookup name st.notdone with
  | none => Except.error ()
  | some value =>
    match findRef value with
    | none => Except.ok ⟨st.done, aerase name st.notdone⟩
    | some (pre, n, post) =>
      match resolveRef env st.done st.notdone name n with
      | Resolution.crash => Except.error ()
      | Resolution.skip => Except.ok st
      | Resolution.item it done1 =>
        let value' := pre ++ it ++ post
        if '$' ∈ post then
          Except.ok ⟨done1, ainsert name value' st.notdone⟩
        else
          let stored :=
            match pyInt value' with
            | some i => Value.int i
            | none => Value.str (pyStrip value')
          let raw :=
            match pyInt value' with
            | some i => Value.int i
            | none => Value.str value'
          let done2 := ainsert name stored done1
          let done3 :=
            if startsWithPY name = true ∧ name.drop 3 ∈ renamed_variables then
              match alookup (name.drop 3) done2 with
              | some _ => done2
              | none => ainsert (name.drop 3) raw done2
            else done2
          Except.ok ⟨done3, aerase name st.notdone⟩

/-- Run the sweep body over a snapshot of pending names, propagating a
raised exception. -/
def processNames (env : EnvMap) : MState → List Str → Except Unit MState
  | st, [] => Except.ok st
  | st, name :: rest =>
    match processVar env st name with
    | Except.error e => Except.error e
    | Except.ok st' => processNames env st' rest

/-- One full sweep: `for name in list(notdone)` over the snapshot of the
current pending names. -/
def sweep (env : EnvMap) (st : MState) : Except Unit MState :=
  processNames env st (st.notdone.map Prod.fst)

/-- The `while notdone:` fixed-point loop, with fuel; `none` means the
loop has not finished within `fuel` sweeps. -/
def sweepLoop (env : EnvMap) : Nat → MState → Option (Except Unit MState)
  | 0, _ => none
  | fuel + 1, st =>
    match st.notdone with
    | [] => some (Except.ok st)
    | _ :: _ =>
      match sweep env st with
      | Except.error e => some (Except.error e)
      | Except.ok st' => sweepLoop env fuel st'

/-- Apply the final `strip spurious spaces` pass to every string value. -/
def stripAll (g : Cfg) : Cfg :=
  g.map (fun p => (p.1, stripValue p.2))

/-- `parse_makefile` on the sequence of (comment-stripped, joined) lines
produced by `TextFile`, with the process environment as a parameter:
classify every assignment line, run the interpolation loop, then strip
string values.  `none`: the loop did not finish within `fuel` sweeps;
`some (Except.error ())`: a `KeyError` escaped. -/
def parse_makefile (env : EnvMap) (fuel : Nat) (lines : List Str) :
    Option (Except Unit Cfg) :=
  match sweepLoop env fuel (initState lines) with
  | none => none
  | some (Except.error e) => some (Except.error e)
  | some (Except.ok st) => some (Except.ok (stripAll st.done))

instance {ε α : Type} [DecidableEq ε] [DecidableEq α] : DecidableEq (Except ε α) :=
  fun a b =>
    match a, b with
    | Except.error x, Except.error y =>
      if h : x = y then isTrue (by rw [h])
      else isFalse (by intro hh; cases hh; exact h rfl)
    | Except.error _, Except.ok _ => isFalse (by intro hh; cases hh)
    | Except.ok _, Except.error _ => isFalse (by intro hh; cases hh)
    | Except.ok x, Except.ok y =>
      if h : x = y then isTrue (by rw [h])
      else isFalse (by intro hh; cases hh; exact h rfl)

/-- Result of `expand_makefile_vars`: a fully-expanded string, a raised
exception (`vars.get` returned `None` and the string concatenation raised
`TypeError`), or fuel exhaustion (the `while True` loop still running). -/
inductive ExpandRes where
  | ok (s : Str)
  | err
  | fuelOut
deriving DecidableEq, Repr

/-- `expand_makefile_vars(s, vars)` (source lines 369-391): repeatedly
replace the first `$(...)`/`$&lbrace...&rbrace` reference by the value of
its name in `vars`; a name absent from `vars` raises. -/
def expand_makefile_vars (vars : EnvMap) : Nat → Str → ExpandRes
  | 0, _ => ExpandRes.fuelOut
  | fuel + 1, s =>
    match findRef s with
    | none => ExpandRes.ok s
    | some (pre, n, post) =>
      match alookup n vars with
      | some v => expand_makefile_vars vars fuel (pre ++ v ++ post)
      | none => ExpandRes.err

/-- Number of `$` characters in a string (termination measure for the
expansion loop). -/
def dollarCount (s : Str) : Nat :=
  s.countP (fun c => c = '$')

/-- The two bracket pairs a Makefile variable reference may use. -/
def RefShape (op cl : Char) : Prop :=
  (op = '(' ∧ cl = ')') ∨ (op = '\x7b' ∧ cl = '\x7d')

/-- A name matched by `[A-Za-z][A-Za-z0-9_]*`. -/
def ValidName (nm : Str) : Prop :=
  ∃ c cs, nm = c :: cs ∧ isAlphaCh c = true ∧ ∀ x ∈ cs, isNameChar x = true

/-- The full text of a variable reference. -/
def refText (op cl : Char) (nm : Str) : Str :=
  '$' :: op :: (nm ++ [cl])

/-- The string `s` contains a well-formed variable reference whose name
is absent from `vars`. -/
def HasMissingRef (vars : EnvMap) (s : Str) : Prop :=
  ∃ op cl pre nm post, RefShape op cl ∧ ValidName nm ∧ alookup nm vars = none ∧
    s = pre ++ refText op cl nm ++ post

/-- Match a literal pattern at the start of a line, returning the rest. -/
def stripLit : Str → Str → Option Str
  | [], s => some s
  | _ :: _, [] => none
  | c :: p, d :: s => if d = c then stripLit p s else none

/-- A name matched by `[A-Z][A-Za-z0-9_]+` (at least two characters,
leading uppercase). -/
def validConfigName (s : Str) : Bool :=
  match s with
  | c :: d :: rest => isUpperCh c && (d :: rest).all isNameChar
  | _ => false

/-- Regex `define_rx`: anchored match of
`#define ([A-Z][A-Za-z0-9_]+) (.*)\n` on a raw `readline` line
(trailing newline included), returning the two groups. -/
def matchDefine (line : Str) : Option (Str × Str) :=
  match stripLit ("#define ").data line with
  | none => none
  | some r =>
    match r with
    | [] => none
    | c :: r1 =>
      if isUpperCh c then
        if r1.takeWhile isNameChar = [] then none
        else
          match r1.dropWhile isNameChar with
          | ' ' :: r2 =>
            match r2.dropWhile (fun d => !(d = '\n')) with
            | '\n' :: _ =>
              some (c :: r1.takeWhile isNameChar,
                r2.takeWhile (fun d => !(d = '\n')))
            | _ => none
          | _ => none
      else none

/-- Regex `undef_rx`: anchored match of
`/[*] #undef ([A-Z][A-Za-z0-9_]+) [*]/\n`, returning the name. -/
def matchUndef (line : Str) : Option Str :=
  match stripLit ("/* #undef ").data line with
  | none => none
  | some r =>
    match r with
    | [] => none
    | c :: r1 =>
      if isUpperCh c then
        if r1.takeWhile isNameChar = [] then none
        else
          match r1.dropWhile isNameChar with
          | ' ' :: '*' :: '/' :: '\n' :: _ => some (c :: r1.takeWhile isNameChar)
          | _ => none
      else none

/-- The value stored by `parse_config_h` for a `#define`: coerced to
`int` when possible (Python `int(v)`), else kept as the string. -/
def configValue (v : Str) : Value :=
  match pyInt v with
  | some i => Value.int i
  | none => Value.str v

/-- One line of `parse_config_h`'s loop (source lines 240-253). -/
def stepConfigH (g : Cfg) (line : Str) : Cfg :=
  match matchDefine line with
  | some (n, v) => ainsert n (configValue v) g
  | none =>
    match matchUndef line with
    | some n => ainsert n (Value.int 0) g
    | none => g

/-- `parse_config_h(fp, g)` over the raw lines of the file. -/
def parse_config_h (lines : List Str) (g : Cfg) : Cfg :=
  lines.foldl stepConfigH g

/-- Memoization skeleton of `get_config_vars()` with no arguments
(source lines 494-576).  The whole platform-specific initialization (the
`_init_*` function chosen by `os.name`, plus the prefix/srcdir/darwin
post-processing), which performs file I/O and OS queries and runs only
when the module-global `_config_vars` is still `None`, is abstracted as
the parameter `initAll`.  The argument `state` is the module-global
`_config_vars` before the call; the result is the returned mapping, the
module-global after the call, and whether the initialization ran. -/
def get_config_vars (initAll : Cfg) (state : Option Cfg) : Cfg × Option Cfg × Bool :=
  match state with
  | some g => (g, some g, false)
  | none => (initAll, some initAll, true)

/-- State of the module-global `_config_vars` after a sequence of
`k + 1` calls to `get_config_vars()` starting from `s0`, together with
the `k + 1`-st call's result. -/
def nthConfigCall (initAll : Cfg) (s0 : Option Cfg) : Nat → Cfg × Option Cfg × Bool
  | 0 => get_config_vars initAll s0
  | k + 1 => get_config_vars initAll (nthConfigCall initAll s0 k).2.1

/-- The mutually-referencing pending pair of claim C1. -/
def cycleLines : List Str :=
  [("foo = $(bar)").data, ("bar = $(foo)").data]

def cycleState : MState :=
  initState cycleLines

theorem alookup_ainsert_self (k : Str) (v : α) (l : List (Str × α)) :
    alookup k (ainsert k v l) = some v := by
  induction l with
  | nil => simp [ainsert, alookup]
  | cons hd tl ih =>
    by_cases h : hd.1 = k
    · simp [ainsert, alookup, h]
    · simp [ainsert, alookup, h, ih]

theorem alookup_ainsert_ne (k k' : Str) (v : α) (l : List (Str × α)) (h : k ≠ k') :
    alookup k' (ainsert k v l) = alookup k' l := by
  induction l with
  | nil => simp [ainsert, alookup, h]
  | cons hd tl ih =>
    by_cases h1 : hd.1 = k
    · simp [ainsert, alookup, h1, h]
    · simp only [ainsert, h1, if_false]
      by_cases h2 : hd.1 = k'
      · simp [alookup, h2]
      · simp [alookup, h2, ih]

theorem alookup_mem (k : Str) (v : α) (l : List (Str × α))
    (h : alookup k l = some v) : (k, v) ∈ l := by
  induction l with
  | nil => simp [alookup] at h
  | cons hd tl ih =>
    by_cases h1 : hd.1 = k
    · simp only [alookup, h1, if_true, Option.some.injEq] at h
      subst h
      have he : (k, hd.2) = hd := by
        cases hd
        simp only at h1
        rw [h1]
      rw [he]
      exact List.mem_cons_self _ _
    · simp only [alookup, h1, if_false] at h
      exact List.mem_cons_of_mem _ (ih h)

theorem alookup_map (f : α → β) (k : Str) (l : List (Str × α)) :
    alookup k (l.map (fun p => (p.1, f p.2))) = (alookup k l).map f := by
  induction l with
  | nil => simp [alookup]
  | cons hd tl ih =>
    by_cases h : hd.1 = k
    · simp [alookup, h]
    · simp [alookup, h, ih]

theorem dropWhile_dropWhile (p : Char → Bool) (l : Str) :
    (l.dropWhile p).dropWhile p = l.dropWhile p := by
  induction l with
  | nil => simp
  | cons c rest ih =>
    by_cases h : p c = true
    · simp [List.dropWhile, h, ih]
    · simp [List.dropWhile, h]

theorem head?_dropWhile (p : Char → Bool) (l : Str) (c : Char)
    (h : (l.dropWhile p).head? = some c) : p c = false := by
  induction l with
  | nil => simp [List.dropWhile] at h
  | cons d rest ih =>
    by_cases h1 : p d = true
    · exact ih (by simpa [List.dropWhile, h1] using h)
    · simp only [List.dropWhile, h1, List.head?, Option.some.injEq] at h
      subst h
      simp [h1]

theorem exists_append_dropWhile (p : Char → Bool) (l : Str) :
    ∃ r, l = r ++ l.dropWhile p := by
  induction l with
  | nil => exact ⟨[], rfl⟩
  | cons c rest ih =>
    by_cases h : p c = true
    · obtain ⟨r, hr⟩ := ih
      exact ⟨c :: r, by simp [List.dropWhile, h, ← hr]⟩
    · exact ⟨[], by simp [List.dropWhile, h]⟩

theorem dropWhile_eq_self_of_head (p : Char → Bool) (l : Str)
    (h : ∀ c, l.head? = some c → p c = false) : l.dropWhile p = l := by
  cases l with
  | nil => rfl
  | cons c rest => simp [List.dropWhile, h c rfl]

theorem dropWhile_of_pre (p : Char → Bool) (t u : Str)
    (hu : u.dropWhile p = u) (ht : ∃ r, u = t ++ r) : t.dropWhile p = t := by
  obtain ⟨r, hr⟩ := ht
  cases t with
  | nil => rfl
  | cons c t' =>
    apply dropWhile_eq_self_of_head
    intro d hd
    simp only [List.head?, Option.some.injEq] at hd
    subst hd
    have : u.head? = some c := by rw [hr]; rfl
    refine head?_dropWhile p u c ?_
    rw [hu]
    exact this

theorem pyStrip_idem (s : Str) : pyStrip (pyStrip s) = pyStrip s := by
  unfold pyStrip
  set u := s.dropWhile isPySpace with hu
  set w := u.reverse.dropWhile isPySpace with hw
  have hwrev : w.reverse.dropWhile isPySpace = w.reverse := by
    apply dropWhile_of_pre isPySpace w.reverse u
    · rw [hu]; exact dropWhile_dropWhile _ _
    · obtain ⟨r, hr⟩ := exists_append_dropWhile isPySpace u.reverse
      refine ⟨r.reverse, ?_⟩
      rw [hw]
      calc u = u.reverse.reverse := by rw [List.reverse_reverse]
        _ = (r ++ u.reverse.dropWhile isPySpace).reverse := by rw [← hr]
        _ = (u.reverse.dropWhile isPySpace).reverse ++ r.reverse := by
              rw [List.reverse_append]
  rw [hwrev, List.reverse_reverse, hw, dropWhile_dropWhile]

theorem mem_takeWhile_pred (p : Char → Bool) (l : Str) (x : Char)
    (h : x ∈ l.takeWhile p) : p x = true := by
  induction l with
  | nil => simp at h
  | cons c rest ih =>
    by_cases h1 : p c = true
    · simp only [List.takeWhile, h1, List.mem_cons] at h
      rcases h with h | h
      · subst h; exact h1
      · exact ih h
    · simp [List.takeWhile, h1] at h

theorem takeWhile_append_stop (p : Char → Bool) (a b : Str)
    (ha : ∀ x ∈ a, p x = true) (hb : ∀ c, b.head? = some c → p c = false) :
    (a ++ b).takeWhile p = a ∧ (a ++ b).dropWhile p = b := by
  induction a with
  | nil =>
    constructor
    · cases b with
      | nil => rfl
      | cons c rest => simp [List.takeWhile, hb c rfl]
    · cases b with
      | nil => rfl
      | cons c rest => simp [List.dropWhile, hb c rfl]
  | cons c rest ih =>
    have hc : p c = true := ha c (List.mem_cons_self c rest)
    have := ih (fun x hx => ha x (List.mem_cons_of_mem c hx))
    simp [List.takeWhile, List.dropWhile, hc, this.1, this.2]

theorem sweepLoop_stuck (env : EnvMap) (s : MState)
    (h1 : sweep env s = Except.ok s) (h2 : s.notdone ≠ []) :
    ∀ fuel, sweepLoop env fuel s = none := by
  intro fuel
  induction fuel with
  | zero => rfl
  | succ n ih =>
    cases hn : s.notdone with
    | nil => exact absurd hn h2
    | cons hd tl =>
      simp only [sweepLoop, hn, h1]
      exact ih

theorem resolveRef_done_cases (env : EnvMap) (done : Cfg) (nd : List (Str × Str))
    (name n it : Str) (d1 : Cfg)
    (h : resolveRef env done nd name n = Resolution.item it d1) :
    d1 = done ∨ (n ∉ renamed_variables ∧ d1 = ainsert n (Value.str []) done) := by
  unfold resolveRef at h
  split at h
  · cases h; exact Or.inl rfl
  · split at h
    · cases h
    · split at h
      · cases h; exact Or.inl rfl
      · split at h
        · split at h
          · cases h; exact Or.inl rfl
          · split at h
            · cases h
            · split at h
              · cases h; exact Or.inl rfl
              · cases h
        · rename_i hren
          cases h
          exact Or.inr ⟨hren, rfl⟩

theorem pyLen (x : Str) : (pyCat x).length = x.length + 3 := by
  simp [pyCat]

theorem pyCat_ne_self (x : Str) : pyCat x ≠ x := by
  intro h
  have := congrArg List.length h
  rw [pyLen] at this
  omega

theorem scanVarName_sound (cl : Char) (s nm post : Str)
    (h : scanVarName cl s = some (nm, post)) :
    s = nm ++ cl :: post ∧ ValidName nm := by
  cases s with
  | nil => simp [scanVarName] at h
  | cons c r =>
    simp only [scanVarName] at h
    by_cases ha : isAlphaCh c = true
    · rw [if_pos ha] at h
      split at h
      · rename_i d post' hd
        by_cases hdc : d = cl
        · rw [if_pos hdc] at h
          simp only [Option.some.injEq, Prod.mk.injEq] at h
          obtain ⟨h1, h2⟩ := h
          subst h1
          subst h2
          have hr : r = r.takeWhile isNameChar ++ cl :: post' := by
            conv_lhs => rw [← List.takeWhile_append_dropWhile isNameChar r]
            rw [hd, hdc]
          subst hdc
          constructor
          · rw [List.cons_append, ← hr]
          · exact ⟨c, r.takeWhile isNameChar, rfl, ha,
              fun x hx => mem_takeWhile_pred _ _ _ hx⟩
        · rw [if_neg hdc] at h
          cases h
      · cases h
    · rw [if_neg ha] at h
      cases h

theorem scanVarName_complete (cl : Char) (nm post : Str)
    (hnm : ValidName nm) (hcl : isNameChar cl = false) :
    scanVarName cl (nm ++ cl :: post) = some (nm, post) := by
  obtain ⟨c, cs, rfl, hc, hcs⟩ := hnm
  have hsplit := takeWhile_append_stop isNameChar cs (cl :: post) hcs
    (by intro d hd; simp only [List.head?, Option.some.injEq] at hd; rw [← hd]; exact hcl)
  simp only [scanVarName, List.cons_append, hc, if_pos, hsplit.2, hsplit.1]

theorem findRefWith_sound (op cl : Char) :
    ∀ (s pre nm post : Str), findRefWith op cl s = some (pre, nm, post) →
      s = pre ++ refText op cl nm ++ post ∧ ValidName nm := by
  intro s
  induction s with
  | nil => intro pre nm post h; simp [findRefWith] at h
  | cons c rest ih =>
    intro pre nm post h
    have hrecCase : ∀ hmap : (findRefWith op cl rest).map
        (fun p => (c :: p.1, p.2.1, p.2.2)) = some (pre, nm, post),
        c :: rest = pre ++ refText op cl nm ++ post ∧ ValidName nm := by
      intro hmap
      cases hrec : findRefWith op cl rest with
      | none => rw [hrec] at hmap; cases hmap
      | some pr =>
        rw [hrec] at hmap
        simp only [Option.map_some', Option.some.injEq, Prod.mk.injEq] at hmap
        obtain ⟨h1, h2, h3⟩ := hmap
        obtain ⟨hrest, hv⟩ := ih pr.1 pr.2.1 pr.2.2 (by rw [hrec])
        subst h1
        subst h2
        subst h3
        refine ⟨?_, hv⟩
        rw [hrest]
        simp only [List.cons_append]
    by_cases hc : c = '$'
    · subst hc
      cases rest with
      | nil => simp [findRefWith] at h
      | cons o r2 =>
        by_cases ho : o = op
        · subst ho
          cases hscan : scanVarName cl r2 with
          | none =>
            simp only [findRefWith, hscan, eq_self_iff_true, if_true] at h
            exact hrecCase h
          | some pr =>
            obtain ⟨nm', post'⟩ := pr
            simp only [findRefWith, hscan, eq_self_iff_true, if_true] at h
            simp only [Option.some.injEq, Prod.mk.injEq] at h
            obtain ⟨h1, h2, h3⟩ := h
            obtain ⟨hr2, hv⟩ := scanVarName_sound cl r2 nm' post' hscan
            refine ⟨?_, by rw [← h2]; exact hv⟩
            rw [← h1, List.nil_append, refText, hr2, h2, h3]
            simp
        · simp only [findRefWith, eq_self_iff_true, if_true, if_neg ho] at h
          exact hrecCase h
    · simp only [findRefWith, if_neg hc] at h
      exact hrecCase h

theorem findRefWith_isSome (op cl : Char) (hcl : isNameChar cl = false) :
    ∀ (pre nm post : Str), ValidName nm →
      (findRefWith op cl (pre ++ refText op cl nm ++ post)).isSome = true := by
  intro pre
  induction pre with
  | nil =>
    intro nm post hnm
    have hshape : refText op cl nm ++ post = '$' :: op :: (nm ++ cl :: post) := by
      simp [refText]
    rw [List.nil_append, hshape]
    simp only [findRefWith, scanVarName_complete cl nm post hnm hcl,
      eq_self_iff_true, if_true]
    rfl
  | cons c pre' ih =>
    intro nm post hnm
    simp only [List.cons_append]
    by_cases hc : c = '$'
    · subst hc
      cases hrest : pre' ++ refText op cl nm ++ post with
      | nil =>
        exfalso
        have hlen := congrArg List.length hrest
        simp only [refText, List.length_append, List.length_cons, List.length_nil] at hlen
        omega
      | cons o r2 =>
        have hrec := ih nm post hnm
        rw [hrest] at hrec
        rw [findRefWith]
        cases hfw : findRefWith op cl (o :: r2) with
        | none => rw [hfw] at hrec; cases hrec
        | some pr =>
          by_cases ho : o = op <;> cases hscan : scanVarName cl r2 <;>
            simp [hscan, ho]
    · simp only [findRefWith, if_neg hc, Option.isSome_map']
      exact ih nm post hnm

theorem findRef_sound (s pre nm post : Str) (h : findRef s = some (pre, nm, post)) :
    ∃ op cl, RefShape op cl ∧ ValidName nm ∧ s = pre ++ refText op cl nm ++ post := by
  unfold findRef at h
  cases h1 : findRefWith '(' ')' s with
  | some r =>
    rw [h1] at h
    simp only [Option.some.injEq] at h
    subst h
    obtain ⟨hs, hv⟩ := findRefWith_sound '(' ')' s pre nm post h1
    exact ⟨'(', ')', Or.inl ⟨rfl, rfl⟩, hv, hs⟩
  | none =>
    rw [h1] at h
    obtain ⟨hs, hv⟩ := findRefWith_sound '\x7b' '\x7d' s pre nm post h
    exact ⟨'\x7b', '\x7d', Or.inr ⟨rfl, rfl⟩, hv, hs⟩

theorem findRef_isSome (s : Str) (op cl : Char) (pre nm post : Str)
    (hshape : RefShape op cl) (hnm : ValidName nm)
    (hs : s = pre ++ refText op cl nm ++ post) :
    (findRef s).isSome = true := by
  unfold findRef
  cases h1 : findRefWith '(' ')' s with
  | some r => rfl
  | none =>
    rcases hshape with ⟨hop, hclv⟩ | ⟨hop, hclv⟩
    · subst hop
      subst hclv
      have := findRefWith_isSome '(' ')' (by decide) pre nm post hnm
      rw [← hs, h1] at this
      cases this
    · subst hop
      subst hclv
      have := findRefWith_isSome '\x7b' '\x7d' (by decide) pre nm post hnm
      rw [← hs] at this
      exact this

theorem validName_no_dollar (nm : Str) (h : ValidName nm) : '$' ∉ nm := by
  obtain ⟨c, cs, rfl, hc, hcs⟩ := h
  intro hmem
  rcases List.mem_cons.mp hmem with h1 | h1
  · rw [← h1] at hc
    exact absurd hc (by decide)
  · exact absurd (hcs '$' h1) (by decide)

theorem dollar_not_in_refTail (op cl : Char) (nm : Str)
    (hshape : RefShape op cl) (hnm : ValidName nm) :
    '$' ∉ op :: (nm ++ [cl]) := by
  intro hmem
  rcases List.mem_cons.mp hmem with h1 | h1
  · rcases hshape with ⟨hop, _⟩ | ⟨hop, _⟩ <;> rw [hop] at h1 <;> cases h1
  · rcases List.mem_append.mp h1 with h2 | h2
    · exact validName_no_dollar nm hnm h2
    · rcases hshape with ⟨_, hcl⟩ | ⟨_, hcl⟩ <;> rw [hcl] at h2 <;>
        simp only [List.mem_singleton] at h2 <;> cases h2

theorem nameRun_unique_aux (cl : Char) (hcl : isNameChar cl = false) :
    ∀ (a b x y : Str), (∀ u ∈ a, isNameChar u = true) →
      (∀ u ∈ b, isNameChar u = true) →
      a ++ cl :: x = b ++ cl :: y → a = b ∧ x = y := by
  intro a
  induction a with
  | nil =>
    intro b x y _ hb h
    cases b with
    | nil =>
      simp only [List.nil_append, List.cons.injEq] at h
      exact ⟨rfl, h.2⟩
    | cons d b' =>
      simp only [List.nil_append, List.cons_append, List.cons.injEq] at h
      have hd := hb d (List.mem_cons_self _ _)
      rw [← h.1, hcl] at hd
      cases hd
  | cons c a' ih =>
    intro b x y ha hb h
    cases b with
    | nil =>
      simp only [List.cons_append, List.nil_append, List.cons.injEq] at h
      have hc := ha c (List.mem_cons_self _ _)
      rw [h.1, hcl] at hc
      cases hc
    | cons d b' =>
      simp only [List.cons_append, List.cons.injEq] at h
      obtain ⟨h1, h2⟩ := h
      obtain ⟨he, hx⟩ := ih b' x y (fun u hu => ha u (List.mem_cons_of_mem _ hu))
        (fun u hu => hb u (List.mem_cons_of_mem _ hu)) h2
      exact ⟨by rw [h1, he], hx⟩

theorem validName_unique (cl : Char) (hcl : isNameChar cl = false)
    (a b x y : Str) (ha : ValidName a) (hb : ValidName b)
    (h : a ++ cl :: x = b ++ cl :: y) : a = b ∧ x = y := by
  obtain ⟨c, cs, rfl, _, hcs⟩ := ha
  obtain ⟨d, ds, rfl, _, hds⟩ := hb
  simp only [List.cons_append, List.cons.injEq] at h
  obtain ⟨h1, h2⟩ := h
  obtain ⟨he, hx⟩ := nameRun_unique_aux cl hcl cs ds x y hcs hds h2
  exact ⟨by rw [h1, he], hx⟩

theorem dollarCount_append (a b : Str) :
    dollarCount (a ++ b) = dollarCount a + dollarCount b :=
  List.countP_append _ _ _

theorem dollarCount_eq_zero (s : Str) (h : '$' ∉ s) : dollarCount s = 0 := by
  apply List.countP_eq_zero.mpr
  intro a ha
  simp only [decide_eq_true_eq]
  intro hh
  rw [hh] at ha
  exact h ha

theorem dollarCount_refText (op cl : Char) (nm : Str)
    (hshape : RefShape op cl) (hnm : ValidName nm) :
    dollarCount (refText op cl nm) = 1 := by
  have htail : dollarCount (op :: (nm ++ [cl])) = 0 :=
    dollarCount_eq_zero _ (dollar_not_in_refTail op cl nm hshape hnm)
  unfold refText
  unfold dollarCount at htail ⊢
  rw [List.countP_cons_of_pos _ _ (by simp)]
  rw [htail]

theorem refText_same_start (op1 cl1 op2 cl2 : Char) (nm1 nm2 a b : Str)
    (h1 : RefShape op1 cl1) (h2 : RefShape op2 cl2)
    (hv1 : ValidName nm1) (hv2 : ValidName nm2)
    (heq : refText op1 cl1 nm1 ++ a = refText op2 cl2 nm2 ++ b) :
    nm1 = nm2 := by
  simp only [refText, List.cons_append, List.append_assoc, List.singleton_append,
    List.cons.injEq, true_and] at heq
  obtain ⟨hop, hrest⟩ := heq
  rcases h1 with ⟨ho1, hc1⟩ | ⟨ho1, hc1⟩ <;> rcases h2 with ⟨ho2, hc2⟩ | ⟨ho2, hc2⟩ <;>
    subst ho1 <;> subst hc1 <;> subst ho2 <;> subst hc2
  · exact (validName_unique ')' (by decide) nm1 nm2 a b hv1 hv2 hrest).1
  · exact absurd hop (by decide)
  · exact absurd hop (by decide)
  · exact (validName_unique '\x7d' (by decide) nm1 nm2 a b hv1 hv2 hrest).1

theorem missing_ref_preserved (vars : EnvMap) (pre nm1 post v : Str) (op1 cl1 : Char)
    (hshape1 : RefShape op1 cl1) (hn1 : ValidName nm1)
    (hfound : alookup nm1 vars = some v)
    (hmiss : HasMissingRef vars (pre ++ refText op1 cl1 nm1 ++ post)) :
    HasMissingRef vars (pre ++ v ++ post) := by
  obtain ⟨op2, cl2, p, nm2, q, hshape2, hn2, hmissing, heq⟩ := hmiss
  rw [List.append_assoc, List.append_assoc] at heq
  rcases List.append_eq_append_iff.mp heq with ⟨a1, hp, hb⟩ | ⟨c1, hpre, hd⟩
  · rcases List.append_eq_append_iff.mp hb with ⟨x, hax, hpost⟩ | ⟨y, hR1, hyq⟩
    · refine ⟨op2, cl2, pre ++ v ++ x, nm2, q, hshape2, hn2, hmissing, ?_⟩
      rw [hpost]
      simp [List.append_assoc]
    · cases a1 with
      | nil =>
        exfalso
        simp only [List.nil_append] at hR1 hyq
        rw [← hR1] at hyq
        have := refText_same_start op2 cl2 op1 cl1 nm2 nm1 q post
          hshape2 hshape1 hn2 hn1 hyq
        rw [this] at hmissing
        rw [hmissing] at hfound
        cases hfound
      | cons e a2 =>
        cases y with
        | nil =>
          simp only [List.nil_append] at hyq
          refine ⟨op2, cl2, pre ++ v, nm2, q, hshape2, hn2, hmissing, ?_⟩
          rw [← hyq]
          simp [List.append_assoc]
        | cons f y2 =>
          exfalso
          simp only [refText, List.cons_append, List.cons.injEq] at hyq hR1
          obtain ⟨hf, _⟩ := hyq
          obtain ⟨_, htail⟩ := hR1
          apply dollar_not_in_refTail op1 cl1 nm1 hshape1 hn1
          rw [htail]
          refine List.mem_append.mpr (Or.inr ?_)
          rw [← hf]
          exact List.mem_cons_self _ _
  · rcases List.append_eq_append_iff.mp hd with ⟨x, hcx, hq⟩ | ⟨y, hR2, hyq2⟩
    · refine ⟨op2, cl2, p, nm2, x ++ v ++ post, hshape2, hn2, hmissing, ?_⟩
      rw [hpre, hcx]
      simp [List.append_assoc]
    · cases c1 with
      | nil =>
        exfalso
        simp only [List.nil_append] at hR2 hyq2
        rw [← hR2] at hyq2
        have := refText_same_start op1 cl1 op2 cl2 nm1 nm2 post q
          hshape1 hshape2 hn1 hn2 hyq2
        rw [← this] at hmissing
        rw [hmissing] at hfound
        cases hfound
      | cons e c2 =>
        cases y with
        | nil =>
          simp only [List.append_nil] at hR2
          refine ⟨op2, cl2, p, nm2, v ++ post, hshape2, hn2, hmissing, ?_⟩
          rw [hpre, hR2]
          simp [List.append_assoc]
        | cons f y2 =>
          exfalso
          simp only [refText, List.cons_append, List.cons.injEq] at hyq2 hR2
          obtain ⟨hf, _⟩ := hyq2
          obtain ⟨_, htail⟩ := hR2
          apply dollar_not_in_refTail op2 cl2 nm2 hshape2 hn2
          rw [htail]
          refine List.mem_append.mpr (Or.inr ?_)
          rw [← hf]
          exact List.mem_cons_self _ _

theorem expand_err_of_missing (vars : EnvMap)
    (hvars : ∀ pv ∈ vars, '$' ∉ pv.2) :
    ∀ (fuel : Nat) (s : Str), HasMissingRef vars s → dollarCount s < fuel →
      expand_makefile_vars vars fuel s = ExpandRes.err := by
  intro fuel
  induction fuel with
  | zero => intro s _ h; omega
  | succ n ih =>
    intro s hmiss hdc
    obtain ⟨op2, cl2, p, nm2, q, hshape2, hn2, hmissing, hs⟩ := hmiss
    have hsome : (findRef s).isSome = true :=
      findRef_isSome s op2 cl2 p nm2 q hshape2 hn2 hs
    cases hfr : findRef s with
    | none => rw [hfr] at hsome; cases hsome
    | some t =>
      obtain ⟨pre, nm1, post⟩ := t
      obtain ⟨op1, cl1, hshape1, hn1, hs1⟩ := findRef_sound s pre nm1 post hfr
      simp only [expand_makefile_vars, hfr]
      cases hlk : alookup nm1 vars with
      | none => rfl
      | some v =>
        have hmiss1 : HasMissingRef vars (pre ++ v ++ post) := by
          apply missing_ref_preserved vars pre nm1 post v op1 cl1 hshape1 hn1 hlk
          rw [← hs1]
          exact ⟨op2, cl2, p, nm2, q, hshape2, hn2, hmissing, hs⟩
        have hdc1 : dollarCount (pre ++ v ++ post) < n := by
          have h1 : dollarCount s = dollarCount pre + 1 + dollarCount post := by
            rw [hs1, dollarCount_append, dollarCount_append,
              dollarCount_refText op1 cl1 nm1 hshape1 hn1]
          have hv0 : dollarCount v = 0 :=
            dollarCount_eq_zero v (hvars (nm1, v) (alookup_mem _ _ _ hlk))
          rw [dollarCount_append, dollarCount_append, hv0]
          omega
        exact ih (pre ++ v ++ post) hmiss1 hdc1

/-- C1 (amended): the sweep loop of `parse_makefile` does not terminate on
every accepted input.  A full sweep need not promote or drop anything: if a
sweep maps the parser state to itself while the pending set is nonempty —
as happens when two pending variables reference each other in a cycle with
well-formed references, each being skipped because the other is still
pending — then every later sweep is also a no-op and the `while notdone`
loop never finishes, whatever the fuel. -/
theorem sweep_no_progress_nontermination (env : EnvMap) (st : MState)
    (h1 : sweep env st = Except.ok st) (h2 : st.notdone ≠ []) (fuel : Nat) :
    sweepLoop env fuel st = none :=
  sweepLoop_stuck env st h1 h2 fuel

/-- C1 witness: the two-variable cycle `foo = $(bar)`, `bar = $(foo)` is a
nonempty sweep fixed point, so the loop is still running after 7 sweeps. -/
theorem sweep_no_progress_nontermination_witness :
    sweep [] cycleState = Except.ok cycleState ∧ cycleState.notdone ≠ [] ∧
    sweepLoop [] 7 cycleState = none :=
  ⟨by decide, by decide,
    sweep_no_progress_nontermination [] cycleState (by decide) (by decide) 7⟩

/-- C1 counterexample: on the accepted input `foo = $(bar)`, `bar = $(foo)`
the sweep promotes nothing and drops nothing — it maps the state to itself
with both variables still pending, so the pending set does not strictly
shrink, and even after 100 sweeps `parse_makefile` has not terminated. -/
theorem cyclic_input_sweep_stalls :
    sweep [] cycleState = Except.ok cycleState ∧ cycleState.notdone ≠ [] ∧
    parse_makefile [] 100 cycleLines = none := by
  have h1 : sweep [] cycleState = Except.ok cycleState := by decide
  have h2 : cycleState.notdone ≠ [] := by decide
  refine ⟨h1, h2, ?_⟩
  unfold parse_makefile
  rw [show initState cycleLines = cycleState from rfl,
    sweepLoop_stuck [] cycleState h1 h2 100]

/-- C3 (amended): the assignment regex `([a-zA-Z][a-zA-Z0-9_]+)\s*=\s*(.*)`
requires a variable name of at least two characters, so the claim's literal
lines `A = 1` and `B = $(A)2` are both ignored.  With two-character names
the substituted text is re-parsed as an integer once no `$` remains:
`AA = 1`, `BB = $(AA)2` yields `BB` bound to the integer 12, not the
string `"12"`. -/
theorem substituted_value_reparsed_as_int :
    parse_makefile [] 3 [("AA = 1").data, ("BB = $(AA)2").data] =
      some (Except.ok [(("AA").data, Value.int 1), (("BB").data, Value.int 12)]) := by
  decide

/-- C3 counterexample: at the claim's own input the resulting mapping is
empty — both lines fail the assignment regex (one-character names), so `B`
is bound to nothing at all, not to the string `"12"`. -/
theorem claim_c3_input_yields_empty_map :
    parse_makefile [] 3 [("A = 1").data, ("B = $(A)2").data] =
      some (Except.ok []) := by
  decide

/-- C4: `expand_makefile_vars` fails (string concatenation with the `None`
returned by `vars.get` raises) whenever the string contains a
`$(NAME)`/`$\x7bNAME\x7d` reference whose name is absent from the supplied
mapping; it never substitutes an empty string for it.  The mapping is
assumed fully resolved (no `$` in its values), as the function's own
contract requires, and the fuel bound just says the loop has had enough
iterations to reach the missing reference. -/
theorem expand_makefile_vars_missing_key_fails
    (vars : EnvMap) (s : Str) (fuel : Nat)
    (hvars : ∀ pv ∈ vars, '$' ∉ pv.2)
    (hmiss : HasMissingRef vars s)
    (hfuel : dollarCount s < fuel) :
    expand_makefile_vars vars fuel s = ExpandRes.err :=
  expand_err_of_missing vars hvars fuel s hmiss hfuel

/-- C4 witness: expanding `$(CD)` under the mapping `AB = x` raises. -/
theorem expand_makefile_vars_missing_key_fails_witness :
    HasMissingRef [(("AB").data, ("x").data)] (("$(CD)").data) ∧
    expand_makefile_vars [(("AB").data, ("x").data)] 2 (("$(CD)").data) =
      ExpandRes.err := by
  have hmiss : HasMissingRef [(("AB").data, ("x").data)] (("$(CD)").data) :=
    ⟨'(', ')', [], ("CD").data, [], Or.inl ⟨rfl, rfl⟩,
      ⟨'C', ['D'], rfl, by decide, by decide⟩, by decide, by decide⟩
  exact ⟨hmiss,
    expand_makefile_vars_missing_key_fails _ _ 2 (by decide) hmiss (by decide)⟩

/-- C7: a pending variable whose value has no substring matching
`$(NAME)` or `$\x7bNAME\x7d` is deleted from the pending set without any
error and without touching the `done` map; end to end, the malformed
variable is simply omitted from the result and the other variables are
parsed as usual. -/
theorem malformed_ref_dropped :
    (∀ (env : EnvMap) (st : MState) (name value : Str),
        alookup name st.notdone = some value → '$' ∈ value →
        findRef value = none →
        processVar env st name = Except.ok ⟨st.done, aerase name st.notdone⟩)
    ∧ parse_makefile [] 3
        [("GOOD = hello").data, ("BAD = $x").data, ("REFY = $(GOOD)!").data] =
      some (Except.ok [(("GOOD").data, Value.str ("hello").data),
        (("REFY").data, Value.str ("hello!").data)]) := by
  constructor
  · intro env st name value hpend _ hfind
    simp only [processVar, hpend, hfind]
  · decide

/-- C7 witness: dropping the pending variable `BAD = $x` removes it from
the pending set, leaves `done` unchanged and raises nothing. -/
theorem malformed_ref_dropped_witness :
    processVar [] ⟨[], [(("BAD").data, ("$x").data)]⟩ (("BAD").data) =
      Except.ok ⟨[], []⟩ := by
  have h := malformed_ref_dropped.1 [] ⟨[], [(("BAD").data, ("$x").data)]⟩
    (("BAD").data) (("$x").data) (by decide) (by decide) (by decide)
  rw [h]
  decide

/-- C10: in `parse_makefile`, when a pending variable whose own name does
not start with `PY_` references a renamed variable (`CFLAGS`, `LDFLAGS`,
`CPPFLAGS`) that is not done, not pending and not in the environment, and
whose `PY_`-prefixed counterpart is not pending either, the code performs
the unguarded lookup `done['PY_' + n]`; if that key is also absent the
sweep raises `KeyError` instead of defaulting the reference to the empty
string. -/
theorem renamed_lookup_keyerror (env : EnvMap) (st : MState)
    (name value pre n post : Str)
    (hpend : alookup name st.notdone = some value)
    (href : findRef value = some (pre, n, post))
    (hname : startsWithPY name = false)
    (hren : n ∈ renamed_variables)
    (hdone : alookup n st.done = none)
    (hnd : alookup n st.notdone = none)
    (henv : alookup n env = none)
    (hpynd : alookup (pyCat n) st.notdone = none)
    (hpydone : alookup (pyCat n) st.done = none) :
    processVar env st name = Except.error () := by
  have hres : resolveRef env st.done st.notdone name n = Resolution.crash := by
    simp only [resolveRef, hdone, hnd, henv, hpynd, hpydone, if_pos hren]
    rw [if_neg]
    intro hcond
    rw [hname] at hcond
    cases hcond.1
  simp only [processVar, hpend, href, hres]

/-- C10 witness: `XY = $(CFLAGS) foo` alone, with an empty environment,
crashes the sweep, and `parse_makefile` on that single line reports the
escaped exception. -/
theorem renamed_lookup_keyerror_witness :
    processVar [] ⟨[], [(("XY").data, ("$(CFLAGS) foo").data)]⟩ (("XY").data) =
      Except.error () ∧
    parse_makefile [] 3 [("XY = $(CFLAGS) foo").data] =
      some (Except.error ()) := by
  constructor
  · exact renamed_lookup_keyerror [] ⟨[], [(("XY").data, ("$(CFLAGS) foo").data)]⟩
      (("XY").data) (("$(CFLAGS) foo").data) [] (("CFLAGS").data) ((" foo").data)
      (by decide) (by decide) (by decide) (by decide) (by decide) (by decide)
      (by decide) (by decide) (by decide)
  · decide

/-- C2: the first reference found in a pending value is resolved in this
priority order: (a) a name in the `done` map resolves to that value
(stringified); (b) a name that is itself pending causes the variable to be
skipped for a later sweep (the state is unchanged); (c) a name in the
process environment resolves to the environment value; (d) a renamed
variable (`CFLAGS`/`LDFLAGS`/`CPPFLAGS`) not handled by the earlier cases
resolves through the `PY_`-prefix indirection — in particular, with
`PY_CFLAGS` resolved, `CFLAGS` undefined in the file and absent from the
environment, `$(CFLAGS)` resolves to `PY_CFLAGS`'s resolved value; (e) any
other name defaults to the empty string and is marked resolved in `done`. -/
theorem resolveRef_priority_order :
    (∀ (env : EnvMap) (done : Cfg) (nd : List (Str × Str)) (name n : Str) (v : Value),
        alookup n done = some v →
        resolveRef env done nd name n = Resolution.item (strOfValue v) done)
    ∧ (∀ (env : EnvMap) (done : Cfg) (nd : List (Str × Str)) (name n : Str),
        alookup n done = none → (alookup n nd).isSome = true →
        resolveRef env done nd name n = Resolution.skip)
    ∧ (∀ (env : EnvMap) (done : Cfg) (nd : List (Str × Str)) (name n e : Str),
        alookup n done = none → alookup n nd = none → alookup n env = some e →
        resolveRef env done nd name n = Resolution.item e done)
    ∧ (∀ (env : EnvMap) (done : Cfg) (nd : List (Str × Str)) (name n : Str) (v : Value),
        alookup n done = none → alookup n nd = none → alookup n env = none →
        n ∈ renamed_variables →
        ¬(startsWithPY name = true ∧ name.drop 3 ∈ renamed_variables) →
        alookup (pyCat n) nd = none → alookup (pyCat n) done = some v →
        resolveRef env done nd name n = Resolution.item (strOfValue v) done)
    ∧ (∀ (env : EnvMap) (done : Cfg) (nd : List (Str × Str)) (name n : Str),
        alookup n done = none → alookup n nd = none → alookup n env = none →
        n ∉ renamed_variables →
        resolveRef env done nd name n =
          Resolution.item [] (ainsert n (Value.str []) done))
    ∧ (∀ (env : EnvMap) (st : MState) (name value pre n post : Str),
        alookup name st.notdone = some value →
        findRef value = some (pre, n, post) →
        resolveRef env st.done st.notdone name n = Resolution.skip →
        processVar env st name = Except.ok st)
    ∧ parse_makefile [] 3 [("PY_CFLAGS = -O2").data, ("XZ = $(CFLAGS) a").data] =
        some (Except.ok [(("PY_CFLAGS").data, Value.str ("-O2").data),
          (("XZ").data, Value.str ("-O2 a").data)]) := by
  refine ⟨?_, ?_, ?_, ?_, ?_, ?_, by decide⟩
  · intro env done nd name n v h
    simp only [resolveRef, h]
  · intro env done nd name n h1 h2
    obtain ⟨w, hw⟩ := Option.isSome_iff_exists.mp h2
    simp only [resolveRef, h1, hw]
  · intro env done nd name n e h1 h2 h3
    simp only [resolveRef, h1, h2, h3]
  · intro env done nd name n v h1 h2 h3 h4 h5 h6 h7
    simp only [resolveRef, h1, h2, h3, h6, h7, if_pos h4, if_neg h5]
  · intro env done nd name n h1 h2 h3 h4
    simp only [resolveRef, h1, h2, h3, if_neg h4]
  · intro env st name value pre n post hpend href hres
    simp only [processVar, hpend, href, hres]

/-- C2 witness: case (d) at a concrete state — `$(CFLAGS)` inside the
pending variable `XZ`, with `PY_CFLAGS` already done as `-O2`, nothing
pending for `CFLAGS` or `PY_CFLAGS` and an empty environment, resolves to
`-O2`. -/
theorem resolveRef_priority_order_witness :
    resolveRef [] [(pyCat (("CFLAGS").data), Value.str (("-O2").data))] []
      (("XZ").data) (("CFLAGS").data) =
      Resolution.item (("-O2").data)
        [(pyCat (("CFLAGS").data), Value.str (("-O2").data))] :=
  resolveRef_priority_order.2.2.2.1 []
    [(pyCat (("CFLAGS").data), Value.str (("-O2").data))] []
    (("XZ").data) (("CFLAGS").data) (Value.str (("-O2").data))
    (by decide) (by decide) (by decide) (by decide) (by decide) (by decide)
    (by decide)

/-- C5: each matched assignment line `NAME = VALUE` is classified
immediately — if the stripped right-hand side contains no `$` once
literal `$$` escapes are removed it is stored as done, as an int when the
text parses as an integer and otherwise as a string with every `$$`
unescaped to a single `$`; otherwise the variable is deferred to the
pending set.  After the sweep loop every string value in the result is
stripped of leading and trailing whitespace. -/
theorem classification_and_final_trim :
    (∀ (st : MState) (line nm v0 : Str),
        matchVariable line = some (nm, v0) →
        (('$' ∉ removeDollarDollar (pyStrip v0) →
          classifyLine st line =
            ⟨ainsert nm (doneValue (pyStrip v0)) st.done, st.notdone⟩)
        ∧ ('$' ∈ removeDollarDollar (pyStrip v0) →
          classifyLine st line = ⟨st.done, ainsert nm (pyStrip v0) st.notdone⟩)))
    ∧ (∀ (v : Str) (i : Int), pyInt v = some i → doneValue v = Value.int i)
    ∧ (∀ (v : Str), pyInt v = none → doneValue v = Value.str (unescapeDollars v))
    ∧ (∀ (env : EnvMap) (fuel : Nat) (lines : List Str) (g : Cfg),
        parse_makefile env fuel lines = some (Except.ok g) →
        ∀ (k s : Str), alookup k g = some (Value.str s) → pyStrip s = s) := by
  refine ⟨?_, ?_, ?_, ?_⟩
  · intro st line nm v0 h
    constructor
    · intro hno
      simp only [classifyLine, h, if_neg hno]
    · intro hyes
      simp only [classifyLine, h, if_pos hyes]
  · intro v i h
    simp only [doneValue, h]
  · intro v h
    simp only [doneValue, h]
  · intro env fuel lines g hparse k s hlk
    unfold parse_makefile at hparse
    cases hsl : sweepLoop env fuel (initState lines) with
    | none => rw [hsl] at hparse; cases hparse
    | some r =>
      cases r with
      | error e => rw [hsl] at hparse; cases hparse
      | ok st =>
        rw [hsl] at hparse
        simp only [Option.some.injEq, Except.ok.injEq] at hparse
        rw [← hparse] at hlk
        unfold stripAll at hlk
        rw [alookup_map] at hlk
        cases hw : alookup k st.done with
        | none => rw [hw] at hlk; cases hlk
        | some w =>
          rw [hw] at hlk
          simp only [Option.map_some', Option.some.injEq] at hlk
          cases w with
          | int i => cases hlk
          | str t =>
            simp only [stripValue, Value.str.injEq] at hlk
            rw [← hlk]
            exact pyStrip_idem t

/-- C5 witness: `AB = $$x` is classified as done immediately (the only
`$` comes from the literal `$$` escape) with the escape unescaped, and a
parsed string value is already stripped. -/
theorem classification_and_final_trim_witness :
    classifyLine ⟨[], []⟩ (("AB = $$x").data) =
      ⟨[(("AB").data, Value.str ("$x").data)], []⟩ ∧
    pyStrip (("hello").data) = ("hello").data := by
  constructor
  · have h := (classification_and_final_trim.1 ⟨[], []⟩ (("AB = $$x").data)
      (("AB").data) (("$$x").data) (by decide)).1 (by decide)
    rw [h]
    decide
  · exact classification_and_final_trim.2.2.2 [] 2 [("AB = hello").data]
      [(("AB").data, Value.str ("hello").data)] (by decide)
      (("AB").data) (("hello").data) (by decide)

/-- C9: within one process lifetime, every no-argument call to
`get_config_vars` after the first returns the same mapping as the first
call and leaves the module-global `_config_vars` unchanged, and the
platform initialization does not run again. -/
theorem get_config_vars_memoized (initAll : Cfg) (s0 : Option Cfg) (k : Nat) :
    (nthConfigCall initAll s0 (k + 1)).1 = (nthConfigCall initAll s0 0).1 ∧
    (nthConfigCall initAll s0 (k + 1)).2.2 = false ∧
    (nthConfigCall initAll s0 (k + 1)).2.1 = (nthConfigCall initAll s0 0).2.1 := by
  have hstate : ∀ j, (nthConfigCall initAll s0 j).2.1 =
      some ((nthConfigCall initAll s0 0).1) ∧
      (nthConfigCall initAll s0 j).1 = (nthConfigCall initAll s0 0).1 := by
    intro j
    induction j with
    | zero =>
      refine ⟨?_, rfl⟩
      cases s0 <;> simp [nthConfigCall, get_config_vars]
    | succ m ih =>
      obtain ⟨ih1, ih2⟩ := ih
      constructor <;> simp [nthConfigCall, get_config_vars, ih1]
  refine ⟨(hstate (k + 1)).2, ?_, ?_⟩
  · have h := (hstate k).1
    simp [nthConfigCall, get_config_vars, h]
  · rw [(hstate (k + 1)).1, (hstate 0).1]

/-- C6: when the pending variable `PY_x` (with `x` one of the renamed
variables) is promoted to done by the sweep — its reference was resolved
and the remaining text has no `$` — the resulting value is also published
under the unprefixed name `x`, unless `x` is already in the `done` map, in
which case the existing entry is left untouched.  The source republishes
the unstripped string while storing the stripped one under `PY_x`; the two
agree after stripping, which `stripValue` expresses. -/
theorem py_renamed_republished (env : EnvMap) (st : MState)
    (x value pre n post it : Str) (done1 : Cfg)
    (hx : x ∈ renamed_variables)
    (hpend : alookup (pyCat x) st.notdone = some value)
    (href : findRef value = some (pre, n, post))
    (hres : resolveRef env st.done st.notdone (pyCat x) n = Resolution.item it done1)
    (hpost : '$' ∉ post) :
    ∃ st' stored, processVar env st (pyCat x) = Except.ok st' ∧
      alookup (pyCat x) st'.done = some stored ∧
      (alookup x st.done = none →
        ∃ raw, alookup x st'.done = some raw ∧ stripValue raw = stripValue stored) ∧
      (∀ w, alookup x st.done = some w → alookup x st'.done = some w) := by
  have hne : pyCat x ≠ x := pyCat_ne_self x
  have hne' : x ≠ pyCat x := fun h => hne h.symm
  have hd1 : alookup x done1 = alookup x st.done := by
    rcases resolveRef_done_cases env st.done st.notdone (pyCat x) n it done1 hres
      with h | ⟨hn, h⟩
    · rw [h]
    · rw [h]
      apply alookup_ainsert_ne
      intro he
      rw [he] at hn
      exact hn hx
  have hcond : startsWithPY (pyCat x) = true ∧ x ∈ renamed_variables := ⟨rfl, hx⟩
  have hdrop : List.drop 3 (pyCat x) = x := rfl
  cases hpi : pyInt (pre ++ it ++ post) with
  | some i =>
    cases hx0 : alookup x st.done with
    | none =>
      have halx : alookup x (ainsert (pyCat x) (Value.int i) done1) = none := by
        rw [alookup_ainsert_ne _ _ _ _ hne, hd1]
        exact hx0
      refine ⟨⟨ainsert x (Value.int i) (ainsert (pyCat x) (Value.int i) done1),
        aerase (pyCat x) st.notdone⟩, Value.int i, ?_, ?_, ?_, ?_⟩
      · simp only [processVar, hpend, href, hres, if_neg hpost, hpi, if_pos hcond,
          hdrop, halx]
      · show alookup (pyCat x) (ainsert x (Value.int i)
          (ainsert (pyCat x) (Value.int i) done1)) = some (Value.int i)
        rw [alookup_ainsert_ne _ _ _ _ hne', alookup_ainsert_self]
      · intro _
        exact ⟨Value.int i, alookup_ainsert_self _ _ _, rfl⟩
      · intro w hw
        cases hw
    | some w0 =>
      have halx : alookup x (ainsert (pyCat x) (Value.int i) done1) = some w0 := by
        rw [alookup_ainsert_ne _ _ _ _ hne, hd1]
        exact hx0
      refine ⟨⟨ainsert (pyCat x) (Value.int i) done1, aerase (pyCat x) st.notdone⟩,
        Value.int i, ?_, ?_, ?_, ?_⟩
      · simp only [processVar, hpend, href, hres, if_neg hpost, hpi, if_pos hcond,
          hdrop, halx]
      · exact alookup_ainsert_self _ _ _
      · intro hcontra
        cases hcontra
      · intro w hw
        show alookup x (ainsert (pyCat x) (Value.int i) done1) = some w
        rw [halx]
        exact hw
  | none =>
    cases hx0 : alookup x st.done with
    | none =>
      have halx : alookup x (ainsert (pyCat x)
          (Value.str (pyStrip (pre ++ it ++ post))) done1) = none := by
        rw [alookup_ainsert_ne _ _ _ _ hne, hd1]
        exact hx0
      refine ⟨⟨ainsert x (Value.str (pre ++ it ++ post))
        (ainsert (pyCat x) (Value.str (pyStrip (pre ++ it ++ post))) done1),
        aerase (pyCat x) st.notdone⟩,
        Value.str (pyStrip (pre ++ it ++ post)), ?_, ?_, ?_, ?_⟩
      · simp only [processVar, hpend, href, hres, if_neg hpost, hpi, if_pos hcond,
          hdrop, halx]
      · show alookup (pyCat x) (ainsert x (Value.str (pre ++ it ++ post))
          (ainsert (pyCat x) (Value.str (pyStrip (pre ++ it ++ post))) done1)) =
          some (Value.str (pyStrip (pre ++ it ++ post)))
        rw [alookup_ainsert_ne _ _ _ _ hne', alookup_ainsert_self]
      · intro _
        refine ⟨Value.str (pre ++ it ++ post), alookup_ainsert_self _ _ _, ?_⟩
        simp only [stripValue, Value.str.injEq]
        exact (pyStrip_idem _).symm
      · intro w hw
        cases hw
    | some w0 =>
      have halx : alookup x (ainsert (pyCat x)
          (Value.str (pyStrip (pre ++ it ++ post))) done1) = some w0 := by
        rw [alookup_ainsert_ne _ _ _ _ hne, hd1]
        exact hx0
      refine ⟨⟨ainsert (pyCat x) (Value.str (pyStrip (pre ++ it ++ post))) done1,
        aerase (pyCat x) st.notdone⟩,
        Value.str (pyStrip (pre ++ it ++ post)), ?_, ?_, ?_, ?_⟩
      · simp only [processVar, hpend, href, hres, if_neg hpost, hpi, if_pos hcond,
          hdrop, halx]
      · exact alookup_ainsert_self _ _ _
      · intro hcontra
        cases hcontra
      · intro w hw
        show alookup x (ainsert (pyCat x)
          (Value.str (pyStrip (pre ++ it ++ post))) done1) = some w
        rw [halx]
        exact hw

/-- C6 witness: `PY_CFLAGS = $(ZZ)1` resolves (the unknown `ZZ` defaults
to empty), is stored as the integer 1 under `PY_CFLAGS`, and is also
published under `CFLAGS`, which was not yet done. -/
theorem py_renamed_republished_witness :
    ∃ st' stored,
      processVar [] ⟨[], [(pyCat (("CFLAGS").data), ("$(ZZ)1").data)]⟩
        (pyCat (("CFLAGS").data)) = Except.ok st' ∧
      alookup (pyCat (("CFLAGS").data)) st'.done = some stored ∧
      (alookup (("CFLAGS").data) ([] : Cfg) = none →
        ∃ raw, alookup (("CFLAGS").data) st'.done = some raw ∧
          stripValue raw = stripValue stored) ∧
      (∀ w, alookup (("CFLAGS").data) ([] : Cfg) = some w →
        alookup (("CFLAGS").data) st'.done = some w) :=
  py_renamed_republished [] ⟨[], [(pyCat (("CFLAGS").data), ("$(ZZ)1").data)]⟩
    (("CFLAGS").data) (("$(ZZ)1").data) [] (("ZZ").data) (("1").data) []
    [((("ZZ").data), Value.str [])]
    (by decide) (by decide) (by decide) (by decide) (by decide)

theorem stripLit_append (p s : Str) : stripLit p (p ++ s) = some s := by
  induction p with
  | nil => rfl
  | cons c rest ih => simp [stripLit, ih]

theorem stripLit_sound (p : Str) :
    ∀ (line r : Str), stripLit p line = some r → line = p ++ r := by
  induction p with
  | nil =>
    intro line r h
    simp only [stripLit, Option.some.injEq] at h
    rw [h, List.nil_append]
  | cons c rest ih =>
    intro line r h
    cases line with
    | nil => cases h
    | cons d dl =>
      simp only [stripLit] at h
      by_cases hdc : d = c
      · rw [if_pos hdc] at h
        rw [hdc, List.cons_append, ih dl r h]
      · rw [if_neg hdc] at h
        cases h

theorem validConfigName_parts (nm : Str) (h : validConfigName nm = true) :
    ∃ c cs, nm = c :: cs ∧ isUpperCh c = true ∧ cs ≠ [] ∧
      ∀ x ∈ cs, isNameChar x = true := by
  cases nm with
  | nil => simp [validConfigName] at h
  | cons c rest =>
    cases rest with
    | nil => simp [validConfigName] at h
    | cons d rest2 =>
      simp only [validConfigName, Bool.and_eq_true, List.all_eq_true] at h
      exact ⟨c, d :: rest2, rfl, h.1, by simp, fun x hx => h.2 x hx⟩

theorem matchDefine_eval (nm v rest : Str)
    (hnm : validConfigName nm = true) (hv : '\n' ∉ v) :
    matchDefine (("#define ").data ++ nm ++ ' ' :: v ++ '\n' :: rest) =
      some (nm, v) := by
  obtain ⟨c, cs, rfl, hc, hcs0, hcsall⟩ := validConfigName_parts nm hnm
  have hsplit1 := takeWhile_append_stop isNameChar cs (' ' :: (v ++ '\n' :: rest))
    hcsall
    (by
      intro d hd
      simp only [List.head?, Option.some.injEq] at hd
      rw [← hd]
      decide)
  have hsplit2 := takeWhile_append_stop (fun d => !(d = '\n')) v ('\n' :: rest)
    (by
      intro z hz
      simp only [Bool.not_eq_true', decide_eq_false_iff_not]
      intro hzeq
      rw [hzeq] at hz
      exact hv hz)
    (by
      intro d hd
      simp only [List.head?, Option.some.injEq] at hd
      rw [← hd]
      decide)
  have hline : ("#define ").data ++ (c :: cs) ++ ' ' :: v ++ '\n' :: rest =
      ("#define ").data ++ (c :: (cs ++ ' ' :: (v ++ '\n' :: rest))) := by
    simp [List.append_assoc]
  rw [hline]
  simp only [matchDefine, stripLit_append, hsplit1.1, hsplit1.2, if_pos hc,
    if_neg hcs0, hsplit2.1, hsplit2.2]

theorem matchUndef_eval (nm rest : Str) (hnm : validConfigName nm = true) :
    matchUndef (("/* #undef ").data ++ nm ++ (" */").data ++ '\n' :: rest) =
      some nm := by
  obtain ⟨c, cs, rfl, hc, hcs0, hcsall⟩ := validConfigName_parts nm hnm
  have hsplit1 := takeWhile_append_stop isNameChar cs
    (' ' :: '*' :: '/' :: '\n' :: rest) hcsall
    (by
      intro d hd
      simp only [List.head?, Option.some.injEq] at hd
      rw [← hd]
      decide)
  have hline : ("/* #undef ").data ++ (c :: cs) ++ (" */").data ++ '\n' :: rest =
      ("/* #undef ").data ++ (c :: (cs ++ ' ' :: '*' :: '/' :: '\n' :: rest)) := by
    simp [List.append_assoc]
  rw [hline]
  simp only [matchUndef, stripLit_append, hsplit1.1, hsplit1.2, if_pos hc,
    if_neg hcs0]

theorem matchDefine_sound (line nm v : Str) (h : matchDefine line = some (nm, v)) :
    validConfigName nm = true ∧ '\n' ∉ v ∧
    ∃ rest, line = ("#define ").data ++ nm ++ ' ' :: v ++ '\n' :: rest := by
  unfold matchDefine at h
  split at h
  · cases h
  · rename_i r heq1
    split at h
    · cases h
    · rename_i c r1
      split at h
      · rename_i hc
        by_cases hrun : r1.takeWhile isNameChar = []
        · rw [if_pos hrun] at h
          cases h
        · rw [if_neg hrun] at h
          split at h
          · rename_i r2 heq3
            split at h
            · rename_i rest3 heq4
              simp only [Option.some.injEq, Prod.mk.injEq] at h
              obtain ⟨hnm', hv'⟩ := h
              have hvmem : '\n' ∉ v := by
                rw [← hv']
                intro hmem
                have := mem_takeWhile_pred _ _ _ hmem
                simp at this
              have hval : validConfigName nm = true := by
                rw [← hnm']
                cases hrc : r1.takeWhile isNameChar with
                | nil => exact absurd hrc hrun
                | cons d run2 =>
                  simp only [validConfigName, Bool.and_eq_true, List.all_eq_true]
                  refine ⟨hc, ?_⟩
                  intro z hz
                  rw [← hrc] at hz
                  exact mem_takeWhile_pred _ _ _ hz
              refine ⟨hval, hvmem, rest3, ?_⟩
              have h1 : line = ("#define ").data ++ (c :: r1) :=
                stripLit_sound _ _ _ heq1
              have h2 : r1 = r1.takeWhile isNameChar ++ (' ' :: r2) := by
                conv_lhs => rw [← List.takeWhile_append_dropWhile isNameChar r1]
                rw [heq3]
              have h3 : r2 = v ++ '\n' :: rest3 := by
                conv_lhs =>
                  rw [← List.takeWhile_append_dropWhile (fun d => !(d = '\n')) r2]
                rw [heq4, hv']
              rw [h1, h2, h3, ← hnm']
              simp [List.append_assoc]
            · cases h
          · cases h
      · cases h

theorem matchUndef_sound (line nm : Str) (h : matchUndef line = some nm) :
    validConfigName nm = true ∧
    ∃ rest, line = ("/* #undef ").data ++ nm ++ (" */").data ++ '\n' :: rest := by
  unfold matchUndef at h
  split at h
  · cases h
  · rename_i r heq1
    split at h
    · cases h
    · rename_i c r1
      split at h
      · rename_i hc
        by_cases hrun : r1.takeWhile isNameChar = []
        · rw [if_pos hrun] at h
          cases h
        · rw [if_neg hrun] at h
          split at h
          · rename_i rest3 heq3
            simp only [Option.some.injEq] at h
            have hval : validConfigName nm = true := by
              rw [← h]
              cases hrc : r1.takeWhile isNameChar with
              | nil => exact absurd hrc hrun
              | cons d run2 =>
                simp only [validConfigName, Bool.and_eq_true, List.all_eq_true]
                refine ⟨hc, ?_⟩
                intro z hz
                rw [← hrc] at hz
                exact mem_takeWhile_pred _ _ _ hz
            refine ⟨hval, rest3, ?_⟩
            have h1 : line = ("/* #undef ").data ++ (c :: r1) :=
              stripLit_sound _ _ _ heq1
            have h2 : r1 = r1.takeWhile isNameChar ++ (' ' :: '*' :: '/' :: '\n' :: rest3) := by
              conv_lhs => rw [← List.takeWhile_append_dropWhile isNameChar r1]
              rw [heq3]
            rw [h1, h2, ← h]
            simp [List.append_assoc]
          · cases h
      · cases h

/-- C8: `parse_config_h` maps each input line as follows — a line of the
form `#define NAME VALUE` (NAME per the regex `[A-Z][A-Za-z0-9_]+`)
stores NAME bound to VALUE, coerced to an int exactly when Python
`int(VALUE)` succeeds and kept as a string otherwise; a line of the form
`/* #undef NAME */` stores NAME bound to 0; every other line leaves the
mapping unchanged. -/
theorem parse_config_h_line_shapes :
    (∀ (g : Cfg) (nm v rest : Str), validConfigName nm = true → '\n' ∉ v →
        stepConfigH g (("#define ").data ++ nm ++ ' ' :: v ++ '\n' :: rest) =
          ainsert nm (configValue v) g)
    ∧ (∀ (g : Cfg) (nm rest : Str), validConfigName nm = true →
        stepConfigH g (("/* #undef ").data ++ nm ++ (" */").data ++ '\n' :: rest) =
          ainsert nm (Value.int 0) g)
    ∧ (∀ (v : Str) (i : Int), pyInt v = some i → configValue v = Value.int i)
    ∧ (∀ (v : Str), pyInt v = none → configValue v = Value.str v)
    ∧ (∀ (g : Cfg) (line : Str),
        (¬ ∃ nm v rest, validConfigName nm = true ∧ '\n' ∉ v ∧
          line = ("#define ").data ++ nm ++ ' ' :: v ++ '\n' :: rest) →
        (¬ ∃ nm rest, validConfigName nm = true ∧
          line = ("/* #undef ").data ++ nm ++ (" */").data ++ '\n' :: rest) →
        stepConfigH g line = g) := by
  refine ⟨?_, ?_, ?_, ?_, ?_⟩
  · intro g nm v rest hnm hv
    simp only [stepConfigH, matchDefine_eval nm v rest hnm hv]
  · intro g nm rest hnm
    have hnd : matchDefine
        (("/* #undef ").data ++ nm ++ (" */").data ++ '\n' :: rest) = none := by
      have : stripLit ("#define ").data
          (("/* #undef ").data ++ nm ++ (" */").data ++ '\n' :: rest) = none := rfl
      simp only [matchDefine, this]
    simp only [stepConfigH, hnd, matchUndef_eval nm rest hnm]
  · intro v i h
    simp only [configValue, h]
  · intro v h
    simp only [configValue, h]
  · intro g line hno1 hno2
    cases hd : matchDefine line with
    | some pr =>
      exfalso
      obtain ⟨hval, hnl, rest, hline⟩ :=
        matchDefine_sound line pr.1 pr.2 (by rw [hd])
      exact hno1 ⟨pr.1, pr.2, rest, hval, hnl, hline⟩
    | none =>
      cases hu : matchUndef line with
      | some nm =>
        exfalso
        obtain ⟨hval, rest, hline⟩ := matchUndef_sound line nm hu
        exact hno2 ⟨nm, rest, hval, hline⟩
      | none => simp only [stepConfigH, hd, hu]

/-- C8 witness: a concrete `#define`, a concrete `/* #undef */` and an
unrecognized line behave as stated. -/
theorem parse_config_h_line_shapes_witness :
    stepConfigH [] (("#define FOO 42\n").data) = [(("FOO").data, Value.int 42)] ∧
    stepConfigH [] (("/* #undef BAR */\n").data) = [(("BAR").data, Value.int 0)] ∧
    stepConfigH [] (("junk\n").data) = [] := by
  refine ⟨?_, ?_, by decide⟩
  · have h := parse_config_h_line_shapes.1 [] (("FOO").data) (("42").data) []
      (by decide) (by decide)
    rw [show ("#define FOO 42\n").data =
      ("#define ").data ++ (("FOO").data) ++ ' ' :: (("42").data) ++ '\n' :: []
      from by decide]
    rw [h]
    decide
  · have h := parse_config_h_line_shapes.2.1 [] (("BAR").data) [] (by decide)
    rw [show ("/* #undef BAR */\n").data =
      ("/* #undef ").data ++ (("BAR").data) ++ (" */").data ++ '\n' :: []
      from by decide]
    rw [h]
    decide

end Sysconfig
